import Mathlib

/-!
Verification of the GAEPyPI storage path codec and request handlers.

Python strings are modelled as `List Char`; bytes as `List Nat`.
Each definition mirrors one function of `gaepypi/storage.py` or `main.py`.
-/

set_option autoImplicit false

/-- Python `s.split('/')` on a string modelled as a character list. -/
def splitSlash : List Char → List (List Char)
  | [] => [[]]
  | c :: cs =>
    if c = '/' then [] :: splitSlash cs
    else
      match splitSlash cs with
      | [] => [[c]]
      | s :: rest => (c :: s) :: rest

/-- Python `'/'.join(segments)`. -/
def joinSlash : List (List Char) → List Char
  | [] => []
  | [s] => s
  | s :: ss => s ++ '/' :: joinSlash ss

/-- Python `p.lstrip('/')`: drop every leading slash. -/
def lstripSlash (s : List Char) : List Char := s.dropWhile (· = '/')

/-- Python `s.lower()` on a string (used for header keys). -/
def lowerStr (s : List Char) : List Char := s.map Char.toLower

/-- `to_bucket_and_path` from `gaepypi/storage.py`:
`segments = p.lstrip('/').split('/'); return segments[0], '/'.join(segments[1:])`. -/
def to_bucket_and_path (p : List Char) : List Char × List Char :=
  let segments := splitSlash (lstripSlash p)
  (segments.headD [], joinSlash (segments.drop 1))

/-- The literal `"packages"`. -/
def pkgsLit : List Char := "packages".toList

/-- `GCStorage.get_packages_path`: `'/{0}/packages'.format(self.bucket)`. -/
def get_packages_path (bucket : List Char) : List Char :=
  '/' :: (bucket ++ ('/' :: pkgsLit))

/-- POSIX `os.path.join` on two components, as used by `get_package_path`. -/
def osPathJoin (a b : List Char) : List Char :=
  if b.head? = some '/' then b
  else if a = [] ∨ a.getLast? = some '/' then a ++ b
  else a ++ ('/' :: b)

/-- Python truthiness of an optional string argument (`None` and `''` are falsy). -/
def truthy : Option (List Char) → Bool
  | none => false
  | some v => !v.isEmpty

/-- `GCStorage.get_package_path(package, version=None, filename=None)`. -/
def get_package_path (bucket package : List Char)
    (version filename : Option (List Char)) : List Char :=
  let path := osPathJoin (get_packages_path bucket) package
  if truthy version then
    let path2 := osPathJoin path (version.getD [])
    if truthy filename then osPathJoin path2 (filename.getD []) else path2
  else path

/-- Outcome of `GCStorage.split_path`: Python may raise `IndexError`
(`segments[1]` on a short list), `AssertionError` (identity mismatch), or
return the dictionary built by `dict(zip(components, segments))`. -/
inductive SplitResult where
  | indexError : SplitResult
  | assertionError : SplitResult
  | ok (d : List (List Char × List Char)) : SplitResult
deriving DecidableEq, Repr

/-- The literal `"package"`. -/
def keyPackage : List Char := "package".toList

/-- The literal `"version"`. -/
def keyVersion : List Char := "version".toList

/-- The literal `"filename"`. -/
def keyFilename : List Char := "filename".toList

/-- `components = ['package', 'version', 'filename']`. -/
def componentKeys : List (List Char) := [keyPackage, keyVersion, keyFilename]

/-- `GCStorage.split_path`:
`segments = path.split('/'); assert segments[1] == self.bucket;`
`segments = segments[3:-1] if segments[-1] == '' else segments[3:];`
`return dict(zip(components, segments))`. -/
def split_path (bucket path : List Char) : SplitResult :=
  let segments := splitSlash path
  match segments[1]? with
  | none => SplitResult.indexError
  | some s1 =>
    if s1 = bucket then
      let segs :=
        if segments.getLast? = some [] then (segments.drop 3).dropLast
        else segments.drop 3
      SplitResult.ok (componentKeys.zip segs)
    else SplitResult.assertionError

/-- The padding step of `GCStorage.ls`:
`padded = path if path[-1] == '/' else path + '/'`. -/
def padOf (path : List Char) : List Char :=
  if path.getLast? = some '/' then path else path ++ ['/']

/-- The prefix string `GCStorage.ls` hands to `list_blobs`:
`_, bucket_path = to_bucket_and_path(padded)`.  Python raises `IndexError`
on the empty path (`path[-1]`), modelled as `none`. -/
def ls_query (path : List Char) : Option (List Char) :=
  if path = [] then none else some (to_bucket_and_path (padOf path)).2

/-- Fixed chunk size of `read_binary_data`: `16 * 1024`. -/
def chunkSize : Nat := 16 * 1024

/-- `read_binary_data` from `main.py`: repeatedly `resp.raw.read(16*1024)`,
stop at the first empty chunk, concatenate all chunks.  The raw stream is
modelled as the list of its remaining bytes; a read returns the next
`min (16*1024) remaining` bytes, so the chunk is empty exactly at EOF. -/
def read_binary_data : List Nat → List Nat
  | [] => []
  | b :: bs => ((b :: bs).take chunkSize) ++ read_binary_data ((b :: bs).drop chunkSize)
termination_by s => s.length
decreasing_by
  simp only [List.length_drop, List.length_cons, chunkSize]
  omega

/-- An upstream HTTP response as seen by `proxy_to_pypi_org`. -/
structure UpstreamResponse where
  status : Nat
  headers : List (List Char × List Char)
  body : List Nat
deriving DecidableEq, Repr

/-- The `Response(...)` built by `proxy_to_pypi_org`:
`Response(response=read_binary_data(resp), status=resp.status_code, headers=resp.headers)`. -/
def proxy_response (resp : UpstreamResponse) : UpstreamResponse :=
  UpstreamResponse.mk resp.status resp.headers (read_binary_data resp.body)

/-- A handler outcome: either the locally rendered index page or the
proxied upstream response; the two are never combined. -/
inductive RouteResponse where
  | localHtml (html : List Char) : RouteResponse
  | proxied (resp : UpstreamResponse) : RouteResponse
deriving DecidableEq, Repr

/-- Route `/packages/<package>` (`packages_get_package` in `main.py`):
`if index.exists(): return index.to_html(full_index=False)` else proxy.
The `PackageIndex` lookup result and the rendered page are parameters,
their implementation living outside the storage layer. -/
def packages_get_package (indexExists : Bool) (html : List Char)
    (upstream : UpstreamResponse) : RouteResponse :=
  if indexExists then RouteResponse.localHtml html
  else RouteResponse.proxied (proxy_response upstream)

/-- Route `/pypi/<path:package>` (`pypi_package_get` in `main.py`):
`if not index.empty() and index.exists(st): return index.to_html(full_index=True)`
else proxy. -/
def pypi_package_get (indexEmpty indexExists : Bool) (html : List Char)
    (upstream : UpstreamResponse) : RouteResponse :=
  if !indexEmpty && indexExists then RouteResponse.localHtml html
  else RouteResponse.proxied (proxy_response upstream)

/-- Python dict assignment `d[k] = v` on a dict modelled as an ordered
association list with unique keys: overwrite in place if present,
append otherwise. -/
def dictInsert (d : List (List Char × List Char)) (k v : List Char) :
    List (List Char × List Char) :=
  if d.any (fun kv => kv.1 == k) then
    d.map (fun kv => if kv.1 == k then (k, v) else kv)
  else d ++ [(k, v)]

/-- `cleanup_headers(obj, skip_list)` from `main.py`:
`for k, v in obj.headers.items(): if k.lower() not in skip_list: ret_headers[k] = v`. -/
def cleanup_headers (headers : List (List Char × List Char))
    (skip : List (List Char)) : List (List Char × List Char) :=
  headers.foldl
    (fun ret kv => if skip.contains (lowerStr kv.1) then ret else dictInsert ret kv.1 kv.2)
    []

/-- The exclusion list passed by `proxy_to_pypi_org`. -/
def skip_list : List (List Char) :=
  ["authorization".toList, "x-appengine-auth-domain".toList,
   "x-appengine-user-is-admin".toList, "host".toList]

/-- The literal `"authorization"`. -/
def authLit : List Char := "authorization".toList

/-- An upload POST request as read by `root_post`: optional form fields
`name`, `version`, `:action` (absent key gives `None`) and the uploaded
files (filename paired with content bytes). -/
structure UploadRequest where
  name : Option (List Char)
  version : Option (List Char)
  action : Option (List Char)
  files : List (List Char × List Nat)
deriving DecidableEq, Repr

/-- The literal `"file_upload"`. -/
def actLit : List Char := "file_upload".toList

/-- The guard of `root_post`:
`name and version and len(request.files) and action == 'file_upload'`. -/
def upload_condition (req : UploadRequest) : Bool :=
  truthy req.name && truthy req.version && !req.files.isEmpty
    && req.action == some actLit

/-- Outcome of the upload POST handler: HTTP body together with the number
of store writes performed, or a 403 abort. -/
inductive PostOutcome where
  | success (body : List Char) (writes : Nat) : PostOutcome
  | forbidden : PostOutcome
deriving DecidableEq, Repr

/-- `root_post` from `main.py`.  When the guard holds it attempts
`package.put_file(...)` — one store write, aborting with 403 on
`GAEPyPIError` (the attempt's outcome is a parameter, `Package` living
outside the storage layer); otherwise it does nothing and returns `""`. -/
def root_post (req : UploadRequest) (putFileRaises : Bool) : PostOutcome :=
  if upload_condition req then
    if putFileRaises then PostOutcome.forbidden else PostOutcome.success [] 1
  else PostOutcome.success [] 0

/-- Python runtime errors surfaced by `GCStorage.path_exists`. -/
inductive PyErr where
  | attributeError : PyErr
deriving DecidableEq, Repr

/-- A Python value returned by `path_exists` (`x or y` can yield either
a bool or an int). -/
inductive PyVal where
  | pybool (b : Bool) : PyVal
  | pyint (n : Nat) : PyVal
deriving DecidableEq, Repr

/-- Python truthiness of a `PyVal`. -/
def pyTruthy : PyVal → Bool
  | PyVal.pybool b => b
  | PyVal.pyint n => n != 0

/-- Python `x or y`: the first operand if truthy, otherwise the second. -/
def py_or (a b : PyVal) : PyVal := if pyTruthy a then a else b

/-- The loop `for blob in blobs: ret.add(blob.name)` of
`GCStorage.path_exists`, with `ret = {}` a dict literal: Python dicts have
no attribute `add`, so the first iteration raises `AttributeError`. -/
def dict_add_all : List (List Char) → Except PyErr (List (List Char))
  | [] => Except.ok []
  | _ :: _ => Except.error PyErr.attributeError

/-- `GCStorage.path_exists`.  The backend listing for the queried prefix
is a parameter: `blobNames` are the object names, `pfxs` the directory
prefixes.  On normal return the value is `bucket_path in ret or len(blobs.prefixes)`. -/
def path_exists (path : List Char) (blobNames pfxs : List (List Char)) :
    Except PyErr PyVal :=
  let bucket_path := (to_bucket_and_path path).2
  match dict_add_all blobNames with
  | Except.error e => Except.error e
  | Except.ok ret =>
      Except.ok (py_or (PyVal.pybool (ret.contains bucket_path)) (PyVal.pyint pfxs.length))

/-- Spec-side path encoding, following the spec's words:
`/{storeIdentity}/packages/{package}[/{version}[/{filename}]]`, a missing
trailing component truncating the path (the `filename` bracket nested
inside the `version` bracket). -/
def specEncodedPath (bucket package : List Char)
    (version filename : Option (List Char)) : List Char :=
  '/' :: (bucket ++ ('/' :: (pkgsLit ++ ('/' :: (package ++
    (match version with
     | none => []
     | some v => '/' :: (v ++
        (match filename with
         | none => []
         | some f => '/' :: f))))))))

/-- Concrete inputs used by witness and counterexample theorems. -/
def wB : List Char := "b".toList

/-- Concrete bucket name. -/
def wBucket : List Char := "mybucket".toList

/-- Concrete package name. -/
def wPkg : List Char := "foo".toList

/-- Concrete version. -/
def wVer : List Char := "1.0".toList

/-- Concrete filename. -/
def wFile : List Char := "foo-1.0.tar.gz".toList

/-- A path with four segments after stripping root, bucket and `packages`. -/
def wPathLong : List Char := "/b/packages/a/b/c/d".toList

/-- The bucket-root path. -/
def wPathBucketOnly : List Char := "/b".toList

/-- The packages-root path for bucket `b`. -/
def wPathPkgs : List Char := "/b/packages".toList

/-- A package path for bucket `b`, not slash-terminated. -/
def wPathFoo : List Char := "/b/packages/foo".toList

/-- Concrete inbound headers carrying an `Authorization` entry. -/
def wHeaders : List (List Char × List Char) :=
  [("Authorization".toList, "secret".toList),
   ("Accept".toList, "text/html".toList),
   ("Host".toList, "example.org".toList)]

/-- A concrete upload request with no `name` field. -/
def wReqNoName : UploadRequest :=
  UploadRequest.mk none (some wVer) (some actLit) []

theorem splitSlash_cons_slash (cs : List Char) : splitSlash ('/' :: cs) = [] :: splitSlash cs := by
  simp [splitSlash]

theorem splitSlash_cons_of_ne (c : Char) (cs : List Char) (hc : ¬ c = '/')
    (s : List Char) (rest : List (List Char)) (hs : splitSlash cs = s :: rest) :
    splitSlash (c :: cs) = (c :: s) :: rest := by
  simp only [splitSlash, if_neg hc, hs]

theorem splitSlash_ne_nil (s : List Char) : splitSlash s ≠ [] := by
  cases s with
  | nil => simp [splitSlash]
  | cons c cs =>
    by_cases hc : c = '/'
    · subst hc; simp [splitSlash_cons_slash]
    · cases hs : splitSlash cs with
      | nil => simp [splitSlash, if_neg hc, hs]
      | cons a b => rw [splitSlash_cons_of_ne c cs hc a b hs]; simp

theorem splitSlash_no_slash (x : List Char) (hx : '/' ∉ x) : splitSlash x = [x] := by
  induction x with
  | nil => simp [splitSlash]
  | cons c cs ih =>
    have hc : ¬ c = '/' := fun h => hx (h ▸ List.mem_cons_self c cs)
    have hcs : '/' ∉ cs := fun h => hx (List.mem_cons_of_mem _ h)
    exact splitSlash_cons_of_ne c cs hc cs [] (ih hcs)

theorem splitSlash_append_slash (x rest : List Char) (hx : '/' ∉ x) :
    splitSlash (x ++ '/' :: rest) = x :: splitSlash rest := by
  induction x with
  | nil => simpa using splitSlash_cons_slash rest
  | cons c cs ih =>
    have hc : ¬ c = '/' := fun h => hx (h ▸ List.mem_cons_self c cs)
    have hcs : '/' ∉ cs := fun h => hx (List.mem_cons_of_mem _ h)
    rw [List.cons_append]
    exact splitSlash_cons_of_ne c _ hc cs (splitSlash rest) (ih hcs)

theorem splitSlash_concat_slash (a : List Char) :
    splitSlash (a ++ ['/']) = splitSlash a ++ [[]] := by
  induction a with
  | nil => simp [splitSlash]
  | cons c cs ih =>
    by_cases hc : c = '/'
    · subst hc
      rw [List.cons_append, splitSlash_cons_slash, splitSlash_cons_slash, ih, List.cons_append]
    · cases hs : splitSlash cs with
      | nil => exact absurd hs (splitSlash_ne_nil cs)
      | cons s rest =>
        have h2 : splitSlash (cs ++ ['/']) = s :: (rest ++ [[]]) := by
          rw [ih, hs, List.cons_append]
        rw [List.cons_append, splitSlash_cons_of_ne c _ hc s (rest ++ [[]]) h2,
          splitSlash_cons_of_ne c cs hc s rest hs, List.cons_append]

theorem splitSlash_eq_singleton_nil (cs : List Char) (h : splitSlash cs = [[]]) : cs = [] := by
  cases cs with
  | nil => rfl
  | cons c cs' =>
    by_cases hc : c = '/'
    · subst hc
      rw [splitSlash_cons_slash] at h
      have := splitSlash_ne_nil cs'
      simp at h
      exact absurd h this
    · cases hs : splitSlash cs' with
      | nil => exact absurd hs (splitSlash_ne_nil cs')
      | cons s rest =>
        rw [splitSlash_cons_of_ne c cs' hc s rest hs] at h
        simp at h

theorem splitSlash_getLast?_ne (p : List Char) (hnil : p ≠ []) (h : p.getLast? ≠ some '/') :
    (splitSlash p).getLast? ≠ some [] := by
  induction p with
  | nil => exact absurd rfl hnil
  | cons c cs ih =>
    cases cs with
    | nil =>
      have hc : ¬ c = '/' := by
        intro hc; exact h (by simp [hc])
      rw [splitSlash_no_slash [c] (by simpa [eq_comm] using hc)]
      simp
    | cons d ds =>
      have h' : (d :: ds).getLast? ≠ some '/' := by
        rwa [List.getLast?_cons_cons] at h
      have ihr := ih (by simp) h'
      by_cases hc : c = '/'
      · subst hc
        rw [splitSlash_cons_slash]
        cases hs : splitSlash (d :: ds) with
        | nil => exact absurd hs (splitSlash_ne_nil _)
        | cons s rest => rw [List.getLast?_cons_cons]; rw [hs] at ihr; exact ihr
      · cases hs : splitSlash (d :: ds) with
        | nil => exact absurd hs (splitSlash_ne_nil _)
        | cons s rest =>
          rw [splitSlash_cons_of_ne c _ hc s rest hs]
          cases rest with
          | nil => simp
          | cons r rs =>
            rw [List.getLast?_cons_cons]
            rw [hs, List.getLast?_cons_cons] at ihr
            exact ihr

theorem head?_ne_slash (p : List Char) (hp : '/' ∉ p) : p.head? ≠ some '/' := by
  cases p with
  | nil => simp
  | cons c cs =>
    intro h
    simp only [List.head?_cons, Option.some.injEq] at h
    exact hp (h ▸ List.mem_cons_self c cs)

theorem getLast?_ne_slash (p : List Char) (hp : '/' ∉ p) : p.getLast? ≠ some '/' := by
  intro h
  exact hp (List.mem_of_mem_getLast? (by rw [h]; exact rfl))

theorem getLast?_cons_of_ne_nil (c : Char) (p : List Char) (hp : p ≠ []) :
    (c :: p).getLast? = p.getLast? := by
  have h : c :: p = [c] ++ p := rfl
  rw [h, List.getLast?_append_of_ne_nil [c] hp]

theorem osPathJoin_eq (a b : List Char) (hb : b.head? ≠ some '/')
    (ha : a ≠ []) (ha2 : a.getLast? ≠ some '/') :
    osPathJoin a b = a ++ ('/' :: b) := by
  rw [osPathJoin, if_neg hb, if_neg (not_or.mpr ⟨ha, ha2⟩)]

theorem root_getLast? (bucket : List Char) :
    (get_packages_path bucket).getLast? = some 's' := by
  have h1 : get_packages_path bucket = ('/' :: bucket) ++ ('/' :: pkgsLit) := by
    simp [get_packages_path]
  rw [h1, List.getLast?_append_cons]
  decide

theorem get_package_path_eq_full (bucket p v f : List Char)
    (hp : p ≠ []) (hps : '/' ∉ p) (hv : v ≠ []) (hvs : '/' ∉ v)
    (hf : f ≠ []) (hfs : '/' ∉ f) :
    get_package_path bucket p (some v) (some f) =
      '/' :: (bucket ++ ('/' :: (pkgsLit ++ ('/' :: (p ++ ('/' :: (v ++ ('/' :: f)))))))) := by
  have e1 : osPathJoin (get_packages_path bucket) p = get_packages_path bucket ++ ('/' :: p) :=
    osPathJoin_eq _ _ (head?_ne_slash p hps) (by simp [get_packages_path])
      (by rw [root_getLast?]; simp)
  have l2 : (get_packages_path bucket ++ ('/' :: p)).getLast? = p.getLast? := by
    rw [List.getLast?_append_cons, getLast?_cons_of_ne_nil '/' p hp]
  have e2 : osPathJoin (get_packages_path bucket ++ ('/' :: p)) v =
      (get_packages_path bucket ++ ('/' :: p)) ++ ('/' :: v) :=
    osPathJoin_eq _ _ (head?_ne_slash v hvs) (by simp)
      (by rw [l2]; exact getLast?_ne_slash p hps)
  have l3 : ((get_packages_path bucket ++ ('/' :: p)) ++ ('/' :: v)).getLast? = v.getLast? := by
    rw [List.getLast?_append_cons, getLast?_cons_of_ne_nil '/' v hv]
  have e3 : osPathJoin ((get_packages_path bucket ++ ('/' :: p)) ++ ('/' :: v)) f =
      ((get_packages_path bucket ++ ('/' :: p)) ++ ('/' :: v)) ++ ('/' :: f) :=
    osPathJoin_eq _ _ (head?_ne_slash f hfs) (by simp)
      (by rw [l3]; exact getLast?_ne_slash v hvs)
  have tv : truthy (some v) = true := by
    simp [truthy, List.isEmpty_iff, hv]
  have tf : truthy (some f) = true := by
    simp [truthy, List.isEmpty_iff, hf]
  rw [get_package_path]
  simp only [tv, tf, if_true, Option.getD_some, e1, e2, e3]
  simp [get_packages_path]

/-- Claim C1: for every valid (package, version, filename) triple — each
component a non-empty string containing no `'/'` (and a slash-free bucket
identity) — decoding the encoded path round-trips: `split_path` applied to
`get_package_path package version filename` returns exactly the dictionary
`{package: package, version: version, filename: filename}`. -/
theorem split_path_roundtrip (bucket p v f : List Char)
    (hb : '/' ∉ bucket) (hp : p ≠ []) (hps : '/' ∉ p) (hv : v ≠ []) (hvs : '/' ∉ v)
    (hf : f ≠ []) (hfs : '/' ∉ f) :
    split_path bucket (get_package_path bucket p (some v) (some f)) =
      SplitResult.ok [(keyPackage, p), (keyVersion, v), (keyFilename, f)] := by
  rw [get_package_path_eq_full bucket p v f hp hps hv hvs hf hfs]
  have hsegs :
      splitSlash ('/' :: (bucket ++ ('/' :: (pkgsLit ++ ('/' :: (p ++ ('/' :: (v ++ ('/' :: f))))))))) =
        [[], bucket, pkgsLit, p, v, f] := by
    rw [splitSlash_cons_slash, splitSlash_append_slash bucket _ hb,
      splitSlash_append_slash pkgsLit _ (by decide), splitSlash_append_slash p _ hps,
      splitSlash_append_slash v _ hvs, splitSlash_no_slash f hfs]
  simp only [split_path, hsegs]
  have hlast : [[], bucket, pkgsLit, p, v, f].getLast? = some f := by
    simp [List.getLast?]
  have hget : [[], bucket, pkgsLit, p, v, f][1]? = some bucket := by
    simp
  simp only [hget, hlast, if_pos rfl, Option.some.injEq]
  rw [if_neg hf]
  simp [componentKeys, List.zip]

/-- Witness for C1 at a concrete triple. -/
theorem split_path_roundtrip_witness :
    split_path wBucket (get_package_path wBucket wPkg (some wVer) (some wFile)) =
      SplitResult.ok [(keyPackage, wPkg), (keyVersion, wVer), (keyFilename, wFile)] :=
  split_path_roundtrip wBucket wPkg wVer wFile (by decide) (by decide) (by decide)
    (by decide) (by decide) (by decide) (by decide)

theorem get_package_path_no_version (bucket p : List Char) (f : Option (List Char))
    (hps : '/' ∉ p) (v : Option (List Char)) (hv : truthy v = false) :
    get_package_path bucket p v f = get_packages_path bucket ++ ('/' :: p) := by
  rw [get_package_path]
  simp only [hv, Bool.false_eq_true, if_false]
  exact osPathJoin_eq _ _ (head?_ne_slash p hps) (by simp [get_packages_path])
    (by rw [root_getLast?]; simp)

/-- Claim C3: the encoded path string is bit-exactly
`/{storeIdentity}/packages/{package}[/{version}[/{filename}]]` for every
(valid) package name and optional version/filename: `get_packages_path`
returns `/{bucket}/packages` and `get_package_path` appends exactly the
provided components in order, a missing trailing component truncating the
path (the filename bracket nested inside the version bracket). -/
theorem encoded_path_format (bucket p : List Char) (v f : Option (List Char))
    (hp : p ≠ []) (hps : '/' ∉ p)
    (hv : ∀ x ∈ v, x ≠ [] ∧ '/' ∉ x) (hf : ∀ x ∈ f, x ≠ [] ∧ '/' ∉ x) :
    get_packages_path bucket = '/' :: (bucket ++ ('/' :: pkgsLit)) ∧
    get_package_path bucket p v f = specEncodedPath bucket p v f := by
  refine ⟨rfl, ?_⟩
  cases v with
  | none =>
    rw [get_package_path_no_version bucket p f hps none rfl]
    simp [specEncodedPath, get_packages_path]
  | some vv =>
    obtain ⟨hvne, hvns⟩ := hv vv (by simp)
    cases f with
    | none =>
      have e1 : osPathJoin (get_packages_path bucket) p = get_packages_path bucket ++ ('/' :: p) :=
        osPathJoin_eq _ _ (head?_ne_slash p hps) (by simp [get_packages_path])
          (by rw [root_getLast?]; simp)
      have l2 : (get_packages_path bucket ++ ('/' :: p)).getLast? = p.getLast? := by
        rw [List.getLast?_append_cons, getLast?_cons_of_ne_nil '/' p hp]
      have e2 : osPathJoin (get_packages_path bucket ++ ('/' :: p)) vv =
          (get_packages_path bucket ++ ('/' :: p)) ++ ('/' :: vv) :=
        osPathJoin_eq _ _ (head?_ne_slash vv hvns) (by simp)
          (by rw [l2]; exact getLast?_ne_slash p hps)
      have tv : truthy (some vv) = true := by
        simp [truthy, List.isEmpty_iff, hvne]
      rw [get_package_path]
      simp only [tv, if_true, Option.getD_some, truthy, e1, e2]
      simp [specEncodedPath, get_packages_path, hvne]
    | some ff =>
      obtain ⟨hfne, hfns⟩ := hf ff (by simp)
      rw [get_package_path_eq_full bucket p vv ff hp hps hvne hvns hfne hfns]
      simp [specEncodedPath, get_packages_path]

/-- Witness for C3 at a concrete quadruple. -/
theorem encoded_path_format_witness :
    get_packages_path wBucket = '/' :: (wBucket ++ ('/' :: pkgsLit)) ∧
    get_package_path wBucket wPkg (some wVer) (some wFile) =
      specEncodedPath wBucket wPkg (some wVer) (some wFile) :=
  encoded_path_format wBucket wPkg (some wVer) (some wFile) (by decide) (by decide)
    (by decide) (by decide)

/-- Claim C10: when the version argument is omitted (`None`) or empty, any
supplied filename is silently ignored and `get_package_path` returns the
package-only path `/{bucket}/packages/{package}`; the precondition
"filename implies version" is not checked and its violation does not fail. -/
theorem filename_ignored_without_version (bucket p f : List Char)
    (hps : '/' ∉ p) :
    get_package_path bucket p none (some f) =
      '/' :: (bucket ++ ('/' :: (pkgsLit ++ ('/' :: p)))) ∧
    get_package_path bucket p (some []) (some f) =
      '/' :: (bucket ++ ('/' :: (pkgsLit ++ ('/' :: p)))) := by
  constructor
  · rw [get_package_path_no_version bucket p (some f) hps none rfl]
    simp [get_packages_path]
  · rw [get_package_path_no_version bucket p (some f) hps (some []) (by simp [truthy])]
    simp [get_packages_path]

/-- Witness for C10 at a concrete input, evaluated to the literal path. -/
theorem filename_ignored_without_version_witness :
    get_package_path wB wPkg none (some wFile) = wPathFoo :=
  ((filename_ignored_without_version wB wPkg wFile (by decide)).1).trans (by decide)

theorem read_binary_data_bounded (n : Nat) :
    ∀ s : List Nat, s.length ≤ n → read_binary_data s = s := by
  induction n with
  | zero =>
    intro s h
    have hs : s = [] := List.eq_nil_of_length_eq_zero (Nat.le_zero.mp h)
    subst hs
    rw [read_binary_data]
  | succ n ih =>
    intro s h
    cases s with
    | nil => rw [read_binary_data]
    | cons b bs =>
      have hlen : ((b :: bs).drop chunkSize).length ≤ n := by
        simp only [List.length_drop, List.length_cons]
        simp only [List.length_cons] at h
        have : (0 : Nat) < chunkSize := by rw [chunkSize]; omega
        omega
      rw [read_binary_data, ih ((b :: bs).drop chunkSize) hlen]
      exact List.take_append_drop chunkSize (b :: bs)

/-- Claim C5: the proxied response reuses the upstream status code and
headers verbatim and its body is byte-identical to the full upstream
body: `read_binary_data` (16 KiB chunks until an empty chunk,
concatenated) yields exactly the upstream stream's bytes. -/
theorem proxy_response_verbatim (resp : UpstreamResponse) :
    read_binary_data resp.body = resp.body ∧ proxy_response resp = resp := by
  have hb : read_binary_data resp.body = resp.body :=
    read_binary_data_bounded resp.body.length resp.body le_rfl
  exact ⟨hb, by rw [proxy_response, hb]⟩

/-- Claim C6: local presence always wins over upstream.  On
`/packages/<package>` the response is the locally rendered index exactly
when the `PackageIndex` lookup reports presence; on `/pypi/<package>`
exactly when it additionally reports non-emptiness; otherwise it is the
proxied upstream response — never a merge of the two. -/
theorem local_wins_over_proxy (ex em : Bool) (html : List Char) (up : UpstreamResponse) :
    (packages_get_package ex html up = RouteResponse.localHtml html ↔ ex = true) ∧
    (packages_get_package ex html up = RouteResponse.proxied (proxy_response up) ↔ ex = false) ∧
    (pypi_package_get em ex html up = RouteResponse.localHtml html ↔ (em = false ∧ ex = true)) ∧
    (pypi_package_get em ex html up = RouteResponse.proxied (proxy_response up) ↔
      ¬(em = false ∧ ex = true)) := by
  cases ex <;> cases em <;> simp [packages_get_package, pypi_package_get]

/-- Claim C8: an upload POST missing the name field, the version field or
a file, or whose action discriminator is not `file_upload`, performs no
store write and returns success (empty body), not an error. -/
theorem upload_missing_field_noop (req : UploadRequest) (putFileRaises : Bool)
    (h : req.name = none ∨ req.version = none ∨ req.files = [] ∨ req.action ≠ some actLit) :
    root_post req putFileRaises = PostOutcome.success [] 0 := by
  have hc : upload_condition req = false := by
    rcases h with h | h | h | h
    · simp [upload_condition, h, truthy]
    · simp [upload_condition, h, truthy]
    · simp [upload_condition, h]
    · have hb : (req.action == some actLit) = false := by
        rw [beq_eq_false_iff_ne]
        exact h
      simp [upload_condition, hb]
  rw [root_post, hc]
  simp

/-- Witness for C8: a request with no name field is acknowledged with no write. -/
theorem upload_missing_field_noop_witness :
    root_post wReqNoName true = PostOutcome.success [] 0 :=
  upload_missing_field_noop wReqNoName true (Or.inl (by decide))

/-- Claim C9: whenever the prefix listing contains at least one object,
`path_exists` raises (`ret.add` on the dict literal `ret = {}` is an
`AttributeError`); it returns normally — with the integer
`len(blobs.prefixes)`, never `True` — exactly when the listing has no
blobs at all. -/
theorem path_exists_raises_iff (path : List Char) (blobNames pfxs : List (List Char)) :
    (path_exists path blobNames pfxs = Except.error PyErr.attributeError ↔ blobNames ≠ []) ∧
    (path_exists path blobNames pfxs = Except.ok (PyVal.pyint pfxs.length) ↔ blobNames = []) := by
  cases blobNames with
  | nil =>
    constructor
    · simp [path_exists, dict_add_all, py_or, pyTruthy]
    · simp [path_exists, dict_add_all, py_or, pyTruthy]
  | cons b bs =>
    constructor
    · simp [path_exists, dict_add_all]
    · simp [path_exists, dict_add_all]

/-- Counterexample to C2: the path `/b/packages/a/b/c/d` has four segments
after stripping the root, identity and `packages` segments — outside
{1,2,3} — yet `split_path` does not fail: it silently returns the
truncated dictionary of the first three segments. -/
theorem split_path_truncates_counterexample :
    ((splitSlash wPathLong).drop 3).length = 4 ∧
    split_path wB wPathLong =
      SplitResult.ok [(keyPackage, "a".toList), (keyVersion, wB), (keyFilename, "c".toList)] := by
  constructor
  · decide
  · decide

/-- Claim C2 (amended): `split_path` validates only the identity segment.
A path whose second segment differs from the configured bucket fails (with
`AssertionError`, no `MalformedPathError` exists in the code), and a path
with fewer than two segments fails with `IndexError`; but whenever the
identity segment matches, `split_path` succeeds regardless of the segment
count, returning the `zip`-truncation — at most the first three stripped
segments, a partial or truncated dictionary for counts outside {1,2,3}. -/
theorem split_path_identity_only (bucket path : List Char) :
    ((splitSlash path)[1]? = some bucket →
      ∃ d, split_path bucket path = SplitResult.ok d ∧ d.length ≤ 3) ∧
    (∀ s1, (splitSlash path)[1]? = some s1 → s1 ≠ bucket →
      split_path bucket path = SplitResult.assertionError) ∧
    ((splitSlash path)[1]? = none → split_path bucket path = SplitResult.indexError) := by
  refine ⟨?_, ?_, ?_⟩
  · intro h
    simp only [split_path, h, if_pos rfl]
    refine ⟨_, rfl, ?_⟩
    rw [List.length_zip]
    have hc : componentKeys.length = 3 := by decide
    rw [hc]
    exact Nat.min_le_left _ _
  · intro s1 h hne
    simp only [split_path, h]
    rw [if_neg hne]
  · intro h
    simp only [split_path, h]

/-- Witness for the amended C2, at the four-segment path of the
counterexample and at a mismatched identity. -/
theorem split_path_identity_only_witness :
    (∃ d, split_path wB wPathLong = SplitResult.ok d ∧ d.length ≤ 3) ∧
    split_path wPkg wPathLong = SplitResult.assertionError := by
  constructor
  · exact (split_path_identity_only wB wPathLong).1 (by decide)
  · exact (split_path_identity_only wPkg wPathLong).2.1 wB (by decide) (by decide)

theorem dictInsert_of_not_mem (d : List (List Char × List Char)) (k v : List Char)
    (h : k ∉ d.map Prod.fst) : dictInsert d k v = d ++ [(k, v)] := by
  rw [dictInsert, if_neg]
  intro hany
  rw [List.any_eq_true] at hany
  obtain ⟨kv, hmem, hbeq⟩ := hany
  have hk : kv.1 = k := by simpa using hbeq
  exact h (hk ▸ List.mem_map_of_mem Prod.fst hmem)

theorem cleanup_headers_foldl (skip : List (List Char)) (hs : List (List Char × List Char)) :
    ∀ acc : List (List Char × List Char),
      (acc.map Prod.fst ++ hs.map Prod.fst).Nodup →
      hs.foldl (fun ret kv => if skip.contains (lowerStr kv.1) then ret
        else dictInsert ret kv.1 kv.2) acc
        = acc ++ hs.filter (fun kv => !skip.contains (lowerStr kv.1)) := by
  induction hs with
  | nil =>
    intro acc _
    simp
  | cons kv rest ih =>
    intro acc h
    rw [List.foldl_cons]
    by_cases hskip : skip.contains (lowerStr kv.1)
    · rw [if_pos hskip, ih acc ?_]
      · rw [List.filter_cons, if_neg (by rw [hskip]; simp)]
      · refine List.Nodup.sublist ?_ h
        refine List.Sublist.append_left ?_ _
        simp
    · have hk : kv.1 ∉ acc.map Prod.fst := by
        rw [List.nodup_append] at h
        intro hmem
        exact h.2.2 hmem (by simp)
      have hf : skip.contains (lowerStr kv.1) = false := Bool.eq_false_iff.mpr hskip
      rw [if_neg hskip, dictInsert_of_not_mem acc kv.1 kv.2 hk,
        ih (acc ++ [(kv.1, kv.2)]) ?_]
      · rw [List.filter_cons, if_pos (by rw [hf]; simp)]
        simp
      · simpa using h

/-- Claim C4: the forwarded header set equals the inbound header set minus
the fixed exclusion set {authorization, x-appengine-auth-domain,
x-appengine-user-is-admin, host} (matched case-insensitively): every
non-excluded header is copied with its original value, and an inbound
`Authorization` header is never forwarded. -/
theorem cleanup_headers_spec (headers : List (List Char × List Char))
    (hnd : (headers.map Prod.fst).Nodup) :
    cleanup_headers headers skip_list =
      headers.filter (fun kv => !skip_list.contains (lowerStr kv.1)) ∧
    (∀ k v, ((k, v) ∈ cleanup_headers headers skip_list ↔
      ((k, v) ∈ headers ∧ skip_list.contains (lowerStr k) = false))) ∧
    (∀ k v, (k, v) ∈ headers → lowerStr k = authLit →
      (k, v) ∉ cleanup_headers headers skip_list) := by
  have heq : cleanup_headers headers skip_list =
      headers.filter (fun kv => !skip_list.contains (lowerStr kv.1)) := by
    rw [cleanup_headers]
    simpa using cleanup_headers_foldl skip_list headers [] (by simpa using hnd)
  have hmem : ∀ k v, ((k, v) ∈ cleanup_headers headers skip_list ↔
      ((k, v) ∈ headers ∧ skip_list.contains (lowerStr k) = false)) := by
    intro k v
    rw [heq, List.mem_filter]
    simp
  refine ⟨heq, hmem, ?_⟩
  intro k v hin hauth hcontra
  have hc := ((hmem k v).mp hcontra).2
  rw [hauth] at hc
  have : skip_list.contains authLit = true := by decide
  rw [this] at hc
  exact absurd hc (by decide)

/-- Witness for C4: a concrete header dict with `Authorization`, `Accept`
and `Host` forwards only `Accept`. -/
theorem cleanup_headers_spec_witness :
    cleanup_headers wHeaders skip_list = [("Accept".toList, "text/html".toList)] :=
  ((cleanup_headers_spec wHeaders (by decide)).1).trans (by decide)

theorem joinSlash_concat_nil :
    ∀ l : List (List Char), l ≠ [] → (joinSlash (l ++ [[]])).getLast? = some '/' := by
  intro l
  induction l with
  | nil => intro h; exact absurd rfl h
  | cons a rest ih =>
    intro _
    cases rest with
    | nil =>
      have h1 : joinSlash ([a] ++ [[]]) = a ++ ['/'] := by simp [joinSlash]
      rw [h1, List.getLast?_concat]
    | cons b rest2 =>
      have h2 := ih (by simp)
      have hne : joinSlash ((b :: rest2) ++ [[]]) ≠ [] := by
        intro hnil
        rw [hnil] at h2
        simp at h2
      have hj : joinSlash ((a :: b :: rest2) ++ [[]]) =
          a ++ ('/' :: joinSlash ((b :: rest2) ++ [[]])) := rfl
      rw [hj, List.getLast?_append_cons, getLast?_cons_of_ne_nil '/' _ hne]
      exact h2

theorem split_path_pad_eq (bucket p : List Char)
    (hh : p.head? = some '/') (hl : p.getLast? ≠ some '/') :
    split_path bucket (p ++ ['/']) = split_path bucket p := by
  have hpne : p ≠ [] := by
    intro h
    rw [h] at hh
    simp at hh
  have hlast : (splitSlash p).getLast? ≠ some [] := splitSlash_getLast?_ne p hpne hl
  have hlen : 2 ≤ (splitSlash p).length := by
    obtain ⟨t, rfl⟩ : ∃ t, p = '/' :: t := by
      cases p with
      | nil => simp at hh
      | cons c cs =>
        simp only [List.head?_cons, Option.some.injEq] at hh
        exact ⟨cs, by rw [hh]⟩
    rw [splitSlash_cons_slash]
    cases hst : splitSlash t with
    | nil => exact absurd hst (splitSlash_ne_nil t)
    | cons a b => simp
  have hcat : splitSlash (p ++ ['/']) = splitSlash p ++ [[]] := splitSlash_concat_slash p
  have hget : (splitSlash p ++ [[]])[1]? = (splitSlash p)[1]? :=
    List.getElem?_append_left (by omega)
  cases hm : (splitSlash p)[1]? with
  | none =>
    rw [List.getElem?_eq_none_iff] at hm
    omega
  | some s1 =>
    rw [hm] at hget
    simp only [split_path, hcat, hget, hm]
    by_cases hb : s1 = bucket
    · rw [if_pos hb, if_pos hb]
      have hL : (splitSlash p ++ [[]]).getLast? = some [] := List.getLast?_concat _
      rw [if_pos hL, if_neg hlast]
      have hsegs : ((splitSlash p ++ [[]]).drop 3).dropLast = (splitSlash p).drop 3 := by
        by_cases h3 : 3 ≤ (splitSlash p).length
        · rw [List.drop_append_of_le_length h3, List.dropLast_concat]
        · rw [List.drop_eq_nil_of_le (by omega : (splitSlash p).length ≤ 3),
            List.drop_eq_nil_of_le (by simp; omega)]
          rfl
      rw [hsegs]
    · rw [if_neg hb, if_neg hb]

theorem ls_query_slash_terminated (q : List Char) (hq : q ≠ [])
    (hlen : 3 ≤ (splitSlash (lstripSlash (padOf q))).length) :
    ∃ r, ls_query q = some r ∧ r.getLast? = some '/' := by
  refine ⟨(to_bucket_and_path (padOf q)).2, by rw [ls_query, if_neg hq], ?_⟩
  have hpad : (padOf q).getLast? = some '/' := by
    by_cases h : q.getLast? = some '/'
    · rw [padOf, if_pos h]
      exact h
    · rw [padOf, if_neg h]
      exact List.getLast?_concat q
  have hsne : lstripSlash (padOf q) ≠ [] := by
    intro h
    rw [h] at hlen
    simp [splitSlash] at hlen
  have hslast : (lstripSlash (padOf q)).getLast? = some '/' := by
    have hsplit : (padOf q).takeWhile (· = '/') ++ lstripSlash (padOf q) = padOf q := by
      rw [lstripSlash]
      exact List.takeWhile_append_dropWhile (· = '/') (padOf q)
    rw [← List.getLast?_append_of_ne_nil ((padOf q).takeWhile (· = '/')) hsne, hsplit]
    exact hpad
  have hgoal : (to_bucket_and_path (padOf q)).2 =
      joinSlash ((splitSlash (lstripSlash (padOf q))).drop 1) := rfl
  rw [hgoal]
  have hdecomp : (lstripSlash (padOf q)).dropLast ++ ['/'] = lstripSlash (padOf q) :=
    List.dropLast_append_getLast? '/' hslast
  have hsplit2 : splitSlash (lstripSlash (padOf q)) =
      splitSlash ((lstripSlash (padOf q)).dropLast) ++ [[]] := by
    conv_lhs => rw [← hdecomp]
    exact splitSlash_concat_slash _
  rw [hsplit2] at hlen ⊢
  cases hsegs : splitSlash ((lstripSlash (padOf q)).dropLast) with
  | nil => exact absurd hsegs (splitSlash_ne_nil _)
  | cons s0 srest =>
    cases srest with
    | nil =>
      rw [hsegs] at hlen
      simp at hlen
    | cons a rest2 =>
      have hd : ((s0 :: a :: rest2) ++ [[]]).drop 1 = (a :: rest2) ++ [[]] := by simp
      rw [hd]
      exact joinSlash_concat_nil (a :: rest2) (by simp)

/-- Counterexample to C7: for the bucket-root path `/b` (and likewise
`/b/`), `ls` issues the prefix query with the empty string, which is not
slash-terminated — "always issues a slash-terminated prefix" fails. -/
theorem ls_query_counterexample :
    ls_query wPathBucketOnly = some [] ∧ (([] : List Char).getLast? ≠ some '/') := by
  constructor
  · decide
  · decide

/-- Claim C7 (amended): for every root-anchored path not already ending in
`'/'`, `split_path` of the path with a trailing empty segment equals
`split_path` of the path without it; and `ls` issues a slash-terminated
backend prefix for every non-empty path naming at least one segment
beyond the bucket — only the degenerate bucket-root path yields an
empty (hence unterminated) prefix. -/
theorem trailing_slash_normalization (bucket p q : List Char) :
    (p.head? = some '/' → p.getLast? ≠ some '/' →
      split_path bucket (p ++ ['/']) = split_path bucket p) ∧
    (q ≠ [] → 3 ≤ (splitSlash (lstripSlash (padOf q))).length →
      ∃ r, ls_query q = some r ∧ r.getLast? = some '/') :=
  ⟨split_path_pad_eq bucket p, ls_query_slash_terminated q⟩

/-- Witness for the amended C7 at concrete paths. -/
theorem trailing_slash_normalization_witness :
    split_path wB (wPathFoo ++ ['/']) = split_path wB wPathFoo ∧
    (∃ r, ls_query wPathPkgs = some r ∧ r.getLast? = some '/') :=
  ⟨(trailing_slash_normalization wB wPathFoo wPathPkgs).1 (by decide) (by decide),
   (trailing_slash_normalization wB wPathFoo wPathPkgs).2 (by decide) (by decide)⟩
